import Mathlib

/-!
Verification of the issue-to-pull-request pipeline of this repository
(the `process-issue` script): response extraction (`parseGeminiResponse`),
validation (`validateFileChanges`), the per-file apply loop against the
repository host, and the final report step.

The embedding follows the latest revision of the script.  JavaScript
string operations are modelled by structural functions over `List Char`
(`String.split`, `String.trim`, `String.includes`, `String.startsWith`,
`String.endsWith`, `String.toLowerCase`, `Array.join`), so that every
definition evaluates by kernel reduction.  JavaScript `trim` and
`toLowerCase` are modelled on the ASCII fragment, which covers every
string the script manipulates.
-/

/-- ASCII whitespace, as trimmed by JavaScript `String.prototype.trim`. -/
def isJsWs (c : Char) : Bool :=
  c == ' ' || c == '\t' || c == '\n' || c == '\r' || c == '\x0b' || c == '\x0c'

/-- JavaScript `trim` on character lists: drop whitespace from both ends. -/
def trimChars (cs : List Char) : List Char :=
  ((cs.dropWhile isJsWs).reverse.dropWhile isJsWs).reverse

/-- JavaScript `response.split('\x60\x60\x60')` on character lists: split on each
non-overlapping occurrence of three backticks, scanning left to right. -/
def splitTicksChars : List Char → List (List Char)
  | [] => [[]]
  | [c] => [[c]]
  | [c1, c2] => [[c1, c2]]
  | c1 :: c2 :: c3 :: rest =>
    if c1 == '`' && c2 == '`' && c3 == '`' then
      [] :: splitTicksChars rest
    else
      match splitTicksChars (c2 :: c3 :: rest) with
      | [] => [[c1]]
      | h :: t => (c1 :: h) :: t

/-- JavaScript `block.split('\n')` on character lists. -/
def splitNlChars : List Char → List (List Char)
  | [] => [[]]
  | c :: rest =>
    if c = '\n' then
      [] :: splitNlChars rest
    else
      match splitNlChars rest with
      | [] => [[c]]
      | h :: t => (c :: h) :: t

/-- JavaScript `hay.includes(needle)` on character lists: does `needle`
occur as a contiguous run inside `hay`? -/
def containsSeq (needle : List Char) : List Char → Bool
  | [] => needle.isEmpty
  | c :: rest => needle.isPrefixOf (c :: rest) || containsSeq needle rest

/-- String-level wrapper for `trimChars` (JavaScript `s.trim()`). -/
def jsTrim (s : String) : String := String.mk (trimChars s.data)

/-- String-level wrapper for `splitTicksChars` (JavaScript `s.split('\x60\x60\x60')`). -/
def jsSplitTicks (s : String) : List String := (splitTicksChars s.data).map String.mk

/-- String-level wrapper for `splitNlChars` (JavaScript `s.split('\n')`). -/
def jsSplitLines (s : String) : List String := (splitNlChars s.data).map String.mk

/-- JavaScript `s.includes(sub)`. -/
def jsIncludes (s sub : String) : Bool := containsSeq sub.data s.data

/-- JavaScript `s.startsWith(pre)`. -/
def jsStartsWith (s pre : String) : Bool := pre.data.isPrefixOf s.data

/-- JavaScript `s.endsWith(suf)`. -/
def jsEndsWith (s suf : String) : Bool := suf.data.reverse.isPrefixOf s.data.reverse

/-- JavaScript `s.toLowerCase()` (ASCII fragment). -/
def jsToLower (s : String) : String := String.mk (s.data.map Char.toLower)

/-- JavaScript `lines.join('\n')`. -/
def jsJoinNl : List String → String
  | [] => ""
  | [s] => s
  | s :: t :: rest => s ++ "\n" ++ jsJoinNl (t :: rest)

/-- Node `path.extname` (posix): the suffix of the path's basename from its
last dot, except that a path with no dot in the basename, a dotfile basename
(last dot in first position, e.g. `.env`), or a basename `..` has extension
`""`.  Trailing slashes are ignored, as in Node. -/
def extnameChars (p : List Char) : List Char :=
  let withoutTrailingSlashes := p.reverse.dropWhile (fun c => c == '/')
  let bRev := withoutTrailingSlashes.takeWhile (fun c => !(c == '/'))
  let b := bRev.reverse
  if b = ['.', '.'] then []
  else
    let afterDotRev := bRev.takeWhile (fun c => !(c == '.'))
    if afterDotRev.length = bRev.length then []
    else if bRev.length = afterDotRev.length + 1 then []
    else '.' :: afterDotRev.reverse

/-- String-level wrapper for `extnameChars` (Node `path.extname(p)`). -/
def extname (p : String) : String := String.mk (extnameChars p.data)

/-- A proposed file mutation: `interface FileChange` of the script. -/
structure FileChange where
  path : String
  content : String
deriving DecidableEq, Repr

/-- The language tags recognized by the fence info-string regex
`(?:typescript|javascript|tsx?|jsx?)`, listed in the order a JavaScript
regex engine tries them (ordered alternation, greedy optional `x`). -/
def langTags : List String := ["typescript", "javascript", "tsx", "ts", "jsx", "js"]

/-- The match of `firstLine.match(/^(?:typescript|javascript|tsx?|jsx?):?(.+)?$/)`:
`none` when the regex does not match (no recognized tag starts the line);
`some none` when it matches but capture group 1 is absent (nothing follows
the tag and optional colon); `some (some cap)` when group 1 captured `cap`.
Since `:?(.+)?$` accepts any remainder of a newline-free line, the regex
matches exactly when some tag is a prefix, the first such tag in engine
order wins, a single leading `:` of the remainder is consumed greedily,
and the (necessarily non-empty) rest is the capture. -/
def matchLangPath (s : String) : Option (Option String) :=
  match langTags.find? (fun t => t.data.isPrefixOf s.data) with
  | none => none
  | some t =>
    let rest : List Char := s.data.drop t.data.length
    let rest2 : List Char :=
      match rest with
      | ':' :: r => r
      | r => r
    match rest2 with
    | [] => some none
    | _ => some (some (String.mk rest2))

/-- The predicate of `lines.find(...)` in the fallback path detection:
a non-blank line, not fence syntax, that contains `/`, ends in `.tsx` or
`.ts`, or starts with `src/`. -/
def pathLinePred (line : String) : Bool :=
  !(jsTrim line == "") &&
  !(jsStartsWith line "```") &&
  (jsIncludes line "/" || jsEndsWith line ".tsx" || jsEndsWith line ".ts" ||
    jsStartsWith line "src/")

/-- The anchored regex `/^(typescript|javascript|tsx?|jsx?):?$/`: the line is
exactly a recognized language tag, optionally followed by a colon. -/
def isBareLangTag (line : String) : Bool :=
  langTags.any (fun t => line == t || line == t ++ ":")

/-- The content filter of the fallback branch: keep a line when it is
non-blank, differs from the detected path line, and is not a bare
language tag. -/
def keepContentLine (pathLine line : String) : Bool :=
  !(jsTrim line == "") && !(line == pathLine) && !(isBareLangTag line)

/-- Processing of one fence interior in `parseGeminiResponse`: blocks with
fewer than two lines are skipped; the trimmed first line is matched against
the info-string regex, and when group 1 captured, the capture (trimmed) is
the path and the remaining lines joined verbatim are the content; otherwise
the first path-looking line (searched over all lines) is the path and the
other lines, filtered and joined and trimmed, are the content.  A change is
emitted only when the path is non-empty and the content is non-blank. -/
def parseBlock (block : String) : Option FileChange :=
  let lines := jsSplitLines block
  if lines.length < 2 then none
  else
    let firstLine := jsTrim (lines.headD "")
    let pc : String × String :=
      match matchLangPath firstLine with
      | some (some cap) => (jsTrim cap, jsJoinNl (lines.drop 1))
      | _ =>
        match lines.find? pathLinePred with
        | some pathLine =>
          (jsTrim pathLine, jsTrim (jsJoinNl (lines.filter (keepContentLine pathLine))))
        | none => ("", "")
    if pc.1 == "" then none
    else if jsTrim pc.2 == "" then none
    else some ⟨pc.1, pc.2⟩

/-- `response.split('\x60\x60\x60').filter((_, i) => i % 2 === 1)`: the
fence interiors are the odd-indexed pieces of the split. -/
def oddBlocks (l : List String) : List String :=
  (l.enum.filter (fun p => p.1 % 2 == 1)).map Prod.snd

/-- `parseGeminiResponse`: extract candidate `FileChange`s from the fenced
code blocks of the model response. -/
def parseGeminiResponse (response : String) : List FileChange :=
  (oddBlocks (jsSplitTicks response)).filterMap parseBlock

/-- First rejection rule of `validateFileChanges`: missing (empty) path or
content. -/
def missingRejects (c : FileChange) : Bool :=
  c.path == "" || c.content == ""

/-- `change.path.startsWith('import ')`: import-style pseudo-paths are
exempt from the root check. -/
def isImportPath (c : FileChange) : Bool := jsStartsWith c.path "import "

/-- Second rejection rule: the path is not import-style and does not start
with the allowed root `src/`. -/
def rootRejects (c : FileChange) : Bool :=
  !(isImportPath c) && !(jsStartsWith c.path "src/")

/-- The sensitive extensions guarded by the validator. -/
def sensitiveExtensions : List String := [".css", ".json", ".md", ".env"]

/-- `const ext = isImportPath ? '' : path.extname(change.path)`. -/
def extFor (c : FileChange) : String :=
  if isImportPath c then "" else extname c.path

/-- Third rejection rule: the computed extension is sensitive and the
lowercased issue body does not contain it. -/
def sensitiveRejects (body : String) (c : FileChange) : Bool :=
  sensitiveExtensions.contains (extFor c) && !(jsIncludes (jsToLower body) (extFor c))

/-- The filter predicate of `validateFileChanges`: a change survives when no
rejection rule fires (the rules are tested in source order, each returning
`false` from the filter callback). -/
def validateOne (body : String) (c : FileChange) : Bool :=
  !(missingRejects c) && !(rootRejects c) && !(sensitiveRejects body c)

/-- `validateFileChanges`: order-preserving filter of the extracted changes. -/
def validateFileChanges (body : String) (changes : List FileChange) : List FileChange :=
  changes.filter (validateOne body)

/-- The list the apply loop iterates over:
`validateFileChanges(await parseGeminiResponse(suggestedChanges))`.
No further transformation (in particular no deduplication) is applied. -/
def plannedChanges (body response : String) : List FileChange :=
  validateFileChanges body (parseGeminiResponse response)

/-- Outcome of `octokit.repos.getContent` for a path on the default branch:
the call throws (path absent), returns data without `content`/`sha` fields
(e.g. a directory), or returns an existing file with its version identifier. -/
inductive FileLookup where
  | missing
  | noContentSha
  | file (sha : String)
deriving DecidableEq, Repr

/-- The repository host as seen by the apply loop: lookups resolve against
the default branch (which the loop never writes to), and each
`createOrUpdateFileContents` call either succeeds or throws. -/
structure Host where
  lookup : String → FileLookup
  writeOk : String → Bool

/-- Per-change outcome of one iteration of the apply loop: the write
succeeded, an error was caught and logged (the change is skipped), or no
write was issued because the lookup returned no `content`/`sha`. -/
inductive ApplyOutcome where
  | applied
  | errored
  | noWrite
deriving DecidableEq, Repr

/-- A call issued to the repository host by the apply loop. -/
inductive HostCall where
  | getContent (path : String)
  | createOrUpdate (path : String) (content : String)
deriving DecidableEq, Repr

/-- One iteration of the apply loop body (the `try`/`catch` around
`getContent` and `createOrUpdateFileContents`): returns the outcome and the
host calls issued.  A thrown error from either call is caught by the
`catch`, logged, and the loop moves on. -/
def applyStep (h : Host) (c : FileChange) : ApplyOutcome × List HostCall :=
  match h.lookup c.path with
  | FileLookup.missing => (ApplyOutcome.errored, [HostCall.getContent c.path])
  | FileLookup.noContentSha => (ApplyOutcome.noWrite, [HostCall.getContent c.path])
  | FileLookup.file _ =>
    if h.writeOk c.path then
      (ApplyOutcome.applied, [HostCall.getContent c.path, HostCall.createOrUpdate c.path c.content])
    else
      (ApplyOutcome.errored, [HostCall.getContent c.path, HostCall.createOrUpdate c.path c.content])

/-- The outcomes of the apply loop, one per planned change, in order. -/
def applyOutcomes (h : Host) (cs : List FileChange) : List ApplyOutcome :=
  cs.map (fun c => (applyStep h c).1)

/-- The host calls issued by the apply loop, in order. -/
def applyTrace (h : Host) : List FileChange → List HostCall
  | [] => []
  | c :: cs => (applyStep h c).2 ++ applyTrace h cs

/-- The paths of the `getContent` calls in a trace, in order. -/
def getContentPaths (t : List HostCall) : List String :=
  t.filterMap (fun call =>
    match call with
    | HostCall.getContent p => some p
    | HostCall.createOrUpdate _ _ => none)

/-- Terminal outcome of the reporting step. -/
inductive RunReport where
  | prCreated
  | noChangesCommented
deriving DecidableEq, Repr

/-- The reporting step after the apply loop:
`if (fileChanges.length > 0)` open a pull request and comment with its
number, else post the explanatory comment.  The condition inspects only the
length of the planned list, not the per-file apply outcomes. -/
def reportStep (fileChanges : List FileChange) : RunReport :=
  if fileChanges.length > 0 then RunReport.prCreated else RunReport.noChangesCommented

/-! ## Helper lemmas -/

theorem nil_isPrefixOf (l : List Char) : ([] : List Char).isPrefixOf l = true := by
  cases l <;> rfl

theorem isPrefixOf_append_self (l1 l2 : List Char) : l1.isPrefixOf (l1 ++ l2) = true := by
  induction l1 with
  | nil => exact nil_isPrefixOf _
  | cons a as ih => simp [List.isPrefixOf, ih]

/-- The info-string regex on a first line `typescript:p` with non-empty `p`
matches with capture group `p`. -/
theorem matchLangPath_typescript_colon (p : String) (hp0 : p ≠ "") :
    matchLangPath ("typescript:" ++ p) = some (some p) := by
  cases p with
  | mk d =>
    cases d with
    | nil => exact absurd rfl hp0
    | cons c cs => rfl

/-- A split that found no occurrence of the three-backtick fence delimiter
returns the whole input as its single piece. -/
theorem splitTicksChars_eq_single (cs : List Char)
    (h : containsSeq ['`', '`', '`'] cs = false) : splitTicksChars cs = [cs] := by
  induction cs with
  | nil => rfl
  | cons c1 tail ih =>
    rcases tail with _ | ⟨c2, tail2⟩
    · rfl
    rcases tail2 with _ | ⟨c3, rest⟩
    · rfl
    rw [show containsSeq ['`', '`', '`'] (c1 :: c2 :: c3 :: rest) =
        (['`', '`', '`'].isPrefixOf (c1 :: c2 :: c3 :: rest) ||
          containsSeq ['`', '`', '`'] (c2 :: c3 :: rest)) from rfl,
      Bool.or_eq_false_iff] at h
    obtain ⟨h1, h2⟩ := h
    have hcond : (c1 == '`' && c2 == '`' && c3 == '`') = false := by
      by_contra hc
      rw [Bool.not_eq_false] at hc
      simp only [Bool.and_eq_true, beq_iff_eq] at hc
      obtain ⟨⟨e1, e2⟩, e3⟩ := hc
      subst e1; subst e2; subst e3
      simp [List.isPrefixOf, nil_isPrefixOf] at h1
    have hrec := ih h2
    simp only [splitTicksChars, hcond, Bool.false_eq_true, if_false, hrec]

/-- Every change handed to the apply loop gives rise to exactly one
`getContent` host call, in the loop's order. -/
theorem getContentPaths_append (t1 t2 : List HostCall) :
    getContentPaths (t1 ++ t2) = getContentPaths t1 ++ getContentPaths t2 := by
  simp [getContentPaths, List.filterMap_append]

theorem applyTrace_getContentPaths (h : Host) (cs : List FileChange) :
    getContentPaths (applyTrace h cs) = cs.map FileChange.path := by
  induction cs with
  | nil => rfl
  | cons c cs ih =>
    rw [show applyTrace h (c :: cs) = (applyStep h c).2 ++ applyTrace h cs from rfl,
      getContentPaths_append]
    have hhead : getContentPaths (applyStep h c).2 = [c.path] := by
      cases hl : h.lookup c.path with
      | missing => simp [applyStep, hl, getContentPaths]
      | noContentSha => simp [applyStep, hl, getContentPaths]
      | file sha =>
        by_cases hw : h.writeOk c.path <;> simp [applyStep, hl, hw, getContentPaths]
    rw [hhead, ih]
    rfl

/-! ## Concrete hosts and change lists used by witnesses -/

/-- A host on which every looked-up file exists but every write throws. -/
def hostAllFail : Host :=
  { lookup := fun _ => FileLookup.file "sha0", writeOk := fun _ => false }

/-- A host on which one path is absent from the default branch and every
other path is an existing file whose writes succeed. -/
def hostOneMissing : Host :=
  { lookup := fun p => if p == "src/missing.tsx" then FileLookup.missing else FileLookup.file "sha1",
    writeOk := fun _ => true }

/-- Three planned changes, the middle one targeting the absent path. -/
def changesOneMissing : List FileChange :=
  [⟨"src/App.tsx", "one"⟩, ⟨"src/missing.tsx", "two"⟩, ⟨"src/Other.tsx", "three"⟩]

/-! ## Claims -/

/-- Claim C1, as stated, is false: the code performs no deduplication by
path.  On a response with two fences for `src/App.tsx` carrying different
contents, both validated changes survive planning, so the final write list
handed to the repository host contains both, not only the first. -/
theorem planner_no_dedup_counterexample :
    plannedChanges ""
        "```typescript:src/App.tsx\nAAA\n```\nmid\n```typescript:src/App.tsx\nBBB\n```" =
      [⟨"src/App.tsx", "AAA\n"⟩, ⟨"src/App.tsx", "BBB\n"⟩] := by
  rfl

/-- Claim C1 (amended): the final write list handed to the repository host
is the validated list unchanged — every validated change, duplicate paths
included, produces its own `getContent` host call, in the original order. -/
theorem planner_is_validated_list (h : Host) (body response : String) :
    getContentPaths (applyTrace h (plannedChanges body response)) =
      (plannedChanges body response).map FileChange.path :=
  applyTrace_getContentPaths h (plannedChanges body response)

/-- Claim C2, as stated, is false: on a planned list with one change whose
write fails, the apply loop records an error for every file, yet the
report step still creates a pull request, because its condition inspects
only the length of the planned list. -/
theorem report_ignores_outcomes_counterexample :
    applyOutcomes hostAllFail [⟨"src/App.tsx", "new content"⟩] = [ApplyOutcome.errored] ∧
    reportStep [⟨"src/App.tsx", "new content"⟩] = RunReport.prCreated := by
  exact ⟨rfl, rfl⟩

/-- Claim C2 (amended): a pull request (followed by the PR-reference
comment) is created if and only if the planned list is non-empty; the
per-file apply outcomes are never consulted, so even when every write
fails a pull request is still created, and only an empty planned list
leads to the explanatory comment and `NoChangesCommented`. -/
theorem report_iff_nonempty_plan (h : Host) (cs : List FileChange) :
    (reportStep cs = RunReport.prCreated ↔ cs ≠ []) ∧
    ((applyOutcomes h cs).all (fun o => !(o == ApplyOutcome.applied)) = true →
      cs ≠ [] → reportStep cs = RunReport.prCreated) := by
  constructor
  · cases cs <;> simp [reportStep]
  · intro _ hne
    cases cs with
    | nil => exact absurd rfl hne
    | cons c cs => simp [reportStep]

theorem report_iff_nonempty_plan_witness :
    reportStep [⟨"src/Other.tsx", "zzz"⟩] = RunReport.prCreated :=
  (report_iff_nonempty_plan hostAllFail [⟨"src/Other.tsx", "zzz"⟩]).2 (by decide) (by decide)

/-- Claim C3, as stated, is false on dotfile basenames: `src/.env` ends in
the sensitive extension `.env` and the issue body does not contain `.env`,
yet the validator accepts the change, because Node `path.extname` computes
`""` for a dotfile basename. -/
theorem sensitive_dotfile_counterexample :
    jsEndsWith "src/.env" ".env" = true ∧
    jsIncludes (jsToLower "please rotate the key") ".env" = false ∧
    validateOne "please rotate the key" ⟨"src/.env", "SECRET=1"⟩ = true := by
  exact ⟨rfl, rfl, rfl⟩

/-- Claim C3 (amended): the sensitive-extension rule is keyed on Node
`path.extname` of the path (which is empty for dotfile basenames such as
`.env`, and is not computed at all for import-style pseudo-paths) rather
than on the path's literal ending.  When that computed extension is
sensitive and the lowercased issue body does not contain it, the validator
rejects the change; when the lowercased body does contain the computed
extension, this rule does not reject. -/
theorem validator_sensitive_extname (body : String) (c : FileChange) :
    (jsStartsWith c.path "import " = false →
      sensitiveExtensions.contains (extname c.path) = true →
      jsIncludes (jsToLower body) (extname c.path) = false →
      validateOne body c = false) ∧
    (jsIncludes (jsToLower body) (extFor c) = true → sensitiveRejects body c = false) := by
  constructor
  · intro h1 h2 h3
    have he : extFor c = extname c.path := by simp [extFor, isImportPath, h1]
    have hs : sensitiveRejects body c = true := by
      show (sensitiveExtensions.contains (extFor c) &&
        !(jsIncludes (jsToLower body) (extFor c))) = true
      rw [he, h2, h3]
      rfl
    simp [validateOne, hs]
  · intro h1
    simp [sensitiveRejects, h1]

theorem validator_sensitive_extname_witness :
    validateOne "change the title" ⟨"src/App.css", "body stuff"⟩ = false ∧
    sensitiveRejects "update the .CSS colors" ⟨"src/App.css", "body stuff"⟩ = false :=
  ⟨(validator_sensitive_extname "change the title" ⟨"src/App.css", "body stuff"⟩).1
      (by decide) (by decide) (by decide),
   (validator_sensitive_extname "update the .CSS colors" ⟨"src/App.css", "body stuff"⟩).2
      (by decide)⟩

/-- Claim C4: a change whose path neither starts with `import ` nor with
the allowed root `src/` is rejected whatever its content, while a path
starting with `import ` is exempt from the root-check rule. -/
theorem validator_root_check (body : String) (c : FileChange) :
    (jsStartsWith c.path "import " = false → jsStartsWith c.path "src/" = false →
      validateOne body c = false) ∧
    (jsStartsWith c.path "import " = true → rootRejects c = false) := by
  constructor
  · intro h1 h2
    simp [validateOne, rootRejects, isImportPath, h1, h2]
  · intro h1
    simp [rootRejects, isImportPath, h1]

theorem validator_root_check_witness :
    validateOne "" ⟨"lib/util.ts", "export const x = 1"⟩ = false ∧
    rootRejects ⟨"import A from ./A", "irrelevant"⟩ = false :=
  ⟨(validator_root_check "" ⟨"lib/util.ts", "export const x = 1"⟩).1 (by decide) (by decide),
   (validator_root_check "" ⟨"import A from ./A", "irrelevant"⟩).2 (by decide)⟩

/-- Claim C8: a host error while writing a single planned file is
recoverable.  The loop produces one outcome per planned change, the
outcome of position `i` is exactly the outcome of running the caught loop
body on change `i` alone (independent of every other change's failure),
and every planned change — including those after a failure — is handed to
the host via its own `getContent` call. -/
theorem apply_loop_attempts_every_change (h : Host) (cs : List FileChange) :
    (applyOutcomes h cs).length = cs.length ∧
    (∀ (i : Nat) (h1 : i < cs.length) (h2 : i < (applyOutcomes h cs).length),
      (applyOutcomes h cs).get ⟨i, h2⟩ = (applyStep h (cs.get ⟨i, h1⟩)).1) ∧
    getContentPaths (applyTrace h cs) = cs.map FileChange.path := by
  refine ⟨by simp [applyOutcomes], ?_, applyTrace_getContentPaths h cs⟩
  intro i h1 h2
  simp [applyOutcomes, List.get_eq_getElem, List.getElem_map]

theorem apply_loop_attempts_every_change_witness :
    (applyOutcomes hostOneMissing changesOneMissing).get ⟨2, by decide⟩ =
      (applyStep hostOneMissing (changesOneMissing.get ⟨2, by decide⟩)).1 :=
  (apply_loop_attempts_every_change hostOneMissing changesOneMissing).2.1 2
    (by decide) (by decide)

/-- Claim C9: the apply loop never issues a `createOrUpdate` call for a
path that does not resolve to an existing file (with content and version
identifier) on the default branch — such paths are left untouched and no
file is ever created. -/
theorem apply_loop_never_creates (h : Host) (cs : List FileChange) (p : String)
    (hnf : ∀ sha, h.lookup p ≠ FileLookup.file sha) :
    ∀ content, HostCall.createOrUpdate p content ∉ applyTrace h cs := by
  intro content
  induction cs with
  | nil => simp [applyTrace]
  | cons c cs ih =>
    rw [show applyTrace h (c :: cs) = (applyStep h c).2 ++ applyTrace h cs from rfl]
    simp only [List.mem_append]
    rintro (hmem | hmem)
    · cases hl : h.lookup c.path with
      | missing => simp [applyStep, hl] at hmem
      | noContentSha => simp [applyStep, hl] at hmem
      | file sha =>
        by_cases hw : h.writeOk c.path <;>
        · simp [applyStep, hl, hw] at hmem
          exact hnf sha (hmem.1 ▸ hl)
    · exact ih hmem

theorem apply_loop_never_creates_witness :
    HostCall.createOrUpdate "src/missing.tsx" "two" ∉
      applyTrace hostOneMissing changesOneMissing :=
  apply_loop_never_creates hostOneMissing changesOneMissing "src/missing.tsx"
    (by intro sha hcon
        rw [show hostOneMissing.lookup "src/missing.tsx" = FileLookup.missing from rfl] at hcon
        exact FileLookup.noConfusion hcon)
    "two"

/-- Claim C5: the extractor is total by construction, and on an input with
zero occurrences of the triple-backtick fence delimiter it returns the
empty sequence, since the split yields a single even-indexed (prose) piece. -/
theorem extractor_total_no_fences (s : String) (h : jsIncludes s "```" = false) :
    parseGeminiResponse s = [] := by
  have hsplit : splitTicksChars s.data = [s.data] := splitTicksChars_eq_single s.data h
  show (oddBlocks (jsSplitTicks s)).filterMap parseBlock = []
  rw [show jsSplitTicks s = (splitTicksChars s.data).map String.mk from rfl, hsplit]
  rfl

theorem extractor_total_no_fences_witness :
    parseGeminiResponse "The model proposed nothing actionable." = [] :=
  extractor_total_no_fences "The model proposed nothing actionable." rfl

/-- Claim C6: a fence whose trimmed info string is `typescript:` followed
by a (trimmed, non-empty) path yields a `FileChange` with exactly that
path, and with content the remaining lines of the fence body joined
verbatim, provided the body is present and non-blank. -/
theorem extractor_info_string_path (block L p : String) (rest : List String)
    (hsplit : jsSplitLines block = L :: rest)
    (hinfo : jsTrim L = "typescript:" ++ p)
    (hp : jsTrim p = p) (hp0 : p ≠ "")
    (hrest : rest ≠ [])
    (hcontent : jsTrim (jsJoinNl rest) ≠ "") :
    parseBlock block = some ⟨p, jsJoinNl rest⟩ := by
  obtain ⟨r, rs, rfl⟩ : ∃ r rs, rest = r :: rs := by
    cases rest with
    | nil => exact absurd rfl hrest
    | cons r rs => exact ⟨r, rs, rfl⟩
  have h1 : (p == "") = false := beq_eq_false_iff_ne.mpr hp0
  have h2 : (jsTrim (jsJoinNl (r :: rs)) == "") = false := beq_eq_false_iff_ne.mpr hcontent
  simp only [parseBlock, hsplit]
  rw [if_neg (by simp only [List.length_cons]; omega)]
  rw [show (L :: r :: rs).headD "" = L from rfl, hinfo,
    matchLangPath_typescript_colon p hp0]
  simp only [List.drop_succ_cons, List.drop_zero, hp, h1, h2, Bool.false_eq_true, if_false]

theorem extractor_info_string_path_witness :
    parseBlock "typescript:src/X.tsx\nconst a = 1\nexport default a" =
      some ⟨"src/X.tsx", "const a = 1\nexport default a"⟩ :=
  extractor_info_string_path "typescript:src/X.tsx\nconst a = 1\nexport default a"
    "typescript:src/X.tsx" "src/X.tsx" ["const a = 1", "export default a"]
    rfl rfl rfl (by decide) (by decide) (by decide)

theorem dropWhile_twice (p : Char → Bool) (l : List Char) :
    (l.dropWhile p).dropWhile p = l.dropWhile p := by
  induction l with
  | nil => rfl
  | cons a t ih =>
    rw [List.dropWhile_cons]
    cases h : p a with
    | true => simpa [h] using ih
    | false => simp [List.dropWhile_cons, h]

theorem dropWhile_first_false (p : Char → Bool) (l : List Char) :
    ∀ c ∈ (l.dropWhile p).head?, p c = false := by
  induction l with
  | nil => simp
  | cons a t ih =>
    rw [List.dropWhile_cons]
    cases h : p a with
    | true => simpa [h] using ih
    | false => simp [h]

theorem dropWhile_append_eq (p : Char → Bool) (l : List Char) :
    ∃ pre, pre ++ l.dropWhile p = l := by
  induction l with
  | nil => exact ⟨[], rfl⟩
  | cons a t ih =>
    cases h : p a with
    | true =>
      obtain ⟨pre, hp2⟩ := ih
      refine ⟨a :: pre, ?_⟩
      rw [List.dropWhile_cons, h, if_pos rfl, List.cons_append, hp2]
    | false =>
      refine ⟨[], ?_⟩
      rw [List.dropWhile_cons, h]
      simp

/-- JavaScript `trim` is idempotent. -/
theorem trimChars_idem (cs : List Char) : trimChars (trimChars cs) = trimChars cs := by
  show trimChars (((cs.dropWhile isJsWs).reverse.dropWhile isJsWs).reverse) = _
  have fact1 : (((cs.dropWhile isJsWs).reverse.dropWhile isJsWs).reverse).dropWhile isJsWs =
      ((cs.dropWhile isJsWs).reverse.dropWhile isJsWs).reverse := by
    cases hr : ((cs.dropWhile isJsWs).reverse.dropWhile isJsWs).reverse with
    | nil => rfl
    | cons x xs =>
      have hx : isJsWs x = false := by
        have hhead : (((cs.dropWhile isJsWs).reverse.dropWhile isJsWs).reverse).head? =
            some x := by rw [hr]; rfl
        rw [List.head?_reverse] at hhead
        obtain ⟨pre, hpre⟩ := dropWhile_append_eq isJsWs (cs.dropWhile isJsWs).reverse
        have hne : (cs.dropWhile isJsWs).reverse.dropWhile isJsWs ≠ [] := by
          intro hnil
          rw [hnil] at hhead
          exact Option.noConfusion hhead
        have hlast : ((cs.dropWhile isJsWs).reverse).getLast? = some x := by
          rw [← hpre, List.getLast?_append_of_ne_nil pre hne, hhead]
        rw [List.getLast?_reverse] at hlast
        exact dropWhile_first_false isJsWs cs x hlast
      rw [← hr, hr, List.dropWhile_cons, hx]
      simp
  show ((((((cs.dropWhile isJsWs).reverse.dropWhile isJsWs).reverse).dropWhile
      isJsWs).reverse).dropWhile isJsWs).reverse = _
  rw [fact1, List.reverse_reverse, dropWhile_twice]
  rfl

theorem jsTrim_idem (s : String) : jsTrim (jsTrim s) = jsTrim s := by
  show String.mk (trimChars (String.mk (trimChars s.data)).data) = _
  rw [show (String.mk (trimChars s.data)).data = trimChars s.data from rfl, trimChars_idem]
  rfl

/-- Evaluation of `parseBlock` in the fallback (line-scanning) branch. -/
theorem parseBlock_fallback (block pathLine : String) (lines : List String)
    (hsplit : jsSplitLines block = lines)
    (hlen : ¬ lines.length < 2)
    (hnolang : Option.bind (matchLangPath (jsTrim (lines.headD ""))) id = none)
    (hfound : lines.find? pathLinePred = some pathLine)
    (hTrimP : (jsTrim pathLine == "") = false)
    (hc2 : (jsTrim (jsTrim (jsJoinNl (lines.filter (keepContentLine pathLine)))) == "")
      = false) :
    parseBlock block = some ⟨jsTrim pathLine,
      jsTrim (jsJoinNl (lines.filter (keepContentLine pathLine)))⟩ := by
  simp only [parseBlock, hsplit]
  rw [if_neg hlen]
  rcases hm : matchLangPath (jsTrim (lines.headD "")) with _ | (_ | cap)
  · rw [hfound]
    simp [hTrimP, hc2]
  · rw [hfound]
    simp [hTrimP, hc2]
  · rw [hm] at hnolang
    simp at hnolang

/-- Claim C7: a fence whose info string is a bare recognized language tag
falls through to the line-scanning rule.  The tag line itself never looks
like a path, so the first path-looking line of the body becomes the path
(trimmed), and the content is built from the remaining body lines only:
the tag line is dropped as a bare language tag and the path line is
excluded from the content. -/
theorem extractor_bare_tag_fallback (block tagLine L : String) (rest : List String)
    (hsplit : jsSplitLines block = tagLine :: L :: rest)
    (htag : tagLine ∈ langTags)
    (hL : pathLinePred L = true)
    (hcontent : jsTrim (jsJoinNl (rest.filter (keepContentLine L))) ≠ "") :
    parseBlock block =
      some ⟨jsTrim L, jsTrim (jsJoinNl (rest.filter (keepContentLine L)))⟩ := by
  have hfacts : jsTrim tagLine = tagLine ∧ matchLangPath tagLine = some none ∧
      pathLinePred tagLine = false ∧ isBareLangTag tagLine = true := by
    simp only [langTags, List.mem_cons, List.not_mem_nil, or_false] at htag
    rcases htag with rfl | rfl | rfl | rfl | rfl | rfl <;> exact ⟨rfl, rfl, rfl, rfl⟩
  have hkeepTag : keepContentLine L tagLine = false := by
    simp [keepContentLine, hfacts.2.2.2]
  have hkeepL : keepContentLine L L = false := by
    simp [keepContentLine]
  have hTrimL : (jsTrim L == "") = false := by
    have hL' := hL
    simp only [pathLinePred, Bool.and_eq_true, Bool.not_eq_true'] at hL'
    exact hL'.1.1
  have hfilter : (tagLine :: L :: rest).filter (keepContentLine L) =
      rest.filter (keepContentLine L) := by
    rw [List.filter_cons, hkeepTag, List.filter_cons, hkeepL]
    simp
  have hres := parseBlock_fallback block L (tagLine :: L :: rest) hsplit
    (by simp only [List.length_cons]; omega)
    (by rw [show (tagLine :: L :: rest).headD "" = tagLine from rfl, hfacts.1, hfacts.2.1]; rfl)
    (by rw [List.find?_cons, hfacts.2.2.1, List.find?_cons, hL])
    hTrimL
    (by rw [hfilter, jsTrim_idem]; exact beq_eq_false_iff_ne.mpr hcontent)
  rw [hres, hfilter]

theorem extractor_bare_tag_fallback_witness :
    parseBlock "typescript\nsrc/App.tsx\nexport default App" =
      some ⟨"src/App.tsx", "export default App"⟩ :=
  extractor_bare_tag_fallback "typescript\nsrc/App.tsx\nexport default App"
    "typescript" "src/App.tsx" ["export default App"]
    rfl (by decide) rfl (by decide)

/-- Claim C10: in the line-scanning fallback the emitted content is built
by filtering the block's lines, and the filter removes every blank line,
every line equal to the detected path line (all occurrences, so copies of
the path line inside the fence body are silently dropped), and every bare
language-tag line. -/
theorem fallback_filter_drops_all_copies (block pathLine : String) (lines : List String)
    (hsplit : jsSplitLines block = lines)
    (hlen : ¬ lines.length < 2)
    (hnolang : Option.bind (matchLangPath (jsTrim (lines.headD ""))) id = none)
    (hfound : lines.find? pathLinePred = some pathLine)
    (hcontent : jsTrim (jsJoinNl (lines.filter (keepContentLine pathLine))) ≠ "") :
    parseBlock block = some ⟨jsTrim pathLine,
        jsTrim (jsJoinNl (lines.filter (keepContentLine pathLine)))⟩ ∧
    ∀ l ∈ lines.filter (keepContentLine pathLine),
      jsTrim l ≠ "" ∧ l ≠ pathLine ∧ isBareLangTag l = false := by
  have hTrimP : (jsTrim pathLine == "") = false := by
    have hp := List.find?_some hfound
    simp only [pathLinePred, Bool.and_eq_true, Bool.not_eq_true'] at hp
    exact hp.1.1
  constructor
  · exact parseBlock_fallback block pathLine lines hsplit hlen hnolang hfound hTrimP
      (by rw [jsTrim_idem]; exact beq_eq_false_iff_ne.mpr hcontent)
  · intro l hmem
    rw [List.mem_filter] at hmem
    have hk := hmem.2
    simp only [keepContentLine, Bool.and_eq_true, Bool.not_eq_true'] at hk
    exact ⟨beq_eq_false_iff_ne.mp hk.1.1, beq_eq_false_iff_ne.mp hk.1.2, hk.2⟩

theorem fallback_filter_drops_all_copies_witness :
    parseBlock "notes\nsrc/App.tsx\nline one\nsrc/App.tsx\nline two" =
      some ⟨"src/App.tsx", "notes\nline one\nline two"⟩ :=
  (fallback_filter_drops_all_copies "notes\nsrc/App.tsx\nline one\nsrc/App.tsx\nline two"
    "src/App.tsx" ["notes", "src/App.tsx", "line one", "src/App.tsx", "line two"]
    rfl (by decide) rfl rfl (by decide)).1
